import Mathlib

/-! # Verification of `cargo-bisect-rustc` core algorithms

Shallow embedding of the core, pure parts of `cargo-bisect-rustc`:

* `src/least_satisfying.rs` — the predicate bisection (`least_satisfying`,
  `midpoint_stable`, `midpoint_stable_offset`, `isolate_most_significant_one`,
  `Satisfies`);
* `src/main.rs` — outcome classification (`Config::default_outcome_of_output`),
  the nightly finder iterator (`NightlyFinderIter`), the predicate used by
  `Config::bisect_to_regression`, and the rollup guard of
  `Config::search_perf_builds`;
* `src/toolchains.rs` — `Toolchain::test` and the install error type;
* `src/bounds.rs` — `Bounds::from_args`.

Machine integers (`usize`) are modelled as `Nat`; the bit-level operations of
`midpoint_stable` are modelled with explicit 64-bit semantics (`usizeNot`,
`leadingZeros`), valid on inputs below `2 ^ 64`, which the theorems assume.
Rust slices of verdicts are modelled as `List Satisfies`.  Loops are modelled
with explicit fuel; fuel sufficiency is proved, never assumed.
-/

namespace Bisect

/-- The `Satisfies` verdict type from `src/least_satisfying.rs`. -/
inductive Satisfies where
  | Yes
  | No
  | Unknown
deriving DecidableEq

/-! ## Bit-level helpers for `midpoint_stable` (src/least_satisfying.rs) -/

/-- Bit width of Rust `usize` on the supported 64-bit targets. -/
def usizeBits : Nat := 64

/-- Rust `usize::leading_zeros`: the bit width minus the bit length.
Models the intrinsic for `x < 2 ^ 64`. -/
def leadingZeros (x : Nat) : Nat :=
  usizeBits - (if x = 0 then 0 else Nat.log2 x + 1)

/-- Rust bitwise complement `!y` on `usize`, for `y < 2 ^ 64`. -/
def usizeNot (y : Nat) : Nat := 2 ^ usizeBits - 1 - y

/-- Model of `isolate_most_significant_one` from `src/least_satisfying.rs`:
`x & ((1usize << (BITS - 1)).wrapping_shr(x.leading_zeros()))`.
`wrapping_shr` reduces the shift amount modulo the bit width. -/
def isolate_most_significant_one (x : Nat) : Nat :=
  x &&& ((1 <<< (usizeBits - 1)) >>> (leadingZeros x % usizeBits))

/-- Model of `midpoint_stable` from `src/least_satisfying.rs` (lines 279-306).
The `assert!((right - left) > 1)` entry condition is carried as a hypothesis
of the theorems instead of a panic. -/
def midpoint_stable (left right : Nat) : Nat :=
  if left + 1 = right - 1 then
    left + 1
  else
    let diff := isolate_most_significant_one (left ^^^ (right - 1))
    let mask := usizeNot (diff - 1)
    (mask &&& left) ||| diff

/-- Model of `midpoint_stable_offset` from `src/least_satisfying.rs` (lines 261-271):
bumps both slice indices by `start_offset + 1` to make them one-based before
calling `midpoint_stable`, and shifts the result back. -/
def midpoint_stable_offset (start_offset left right : Nat) : Nat :=
  midpoint_stable (left + (start_offset + 1)) (right + (start_offset + 1))
    - (start_offset + 1)

/-! ## `least_satisfying` (src/least_satisfying.rs, lines 11-101)

The Rust function takes a slice and an impure memoised predicate.  The claims
under verification fix one verdict per index, so the predicate is modelled by
the verdict list itself (`v.getD idx .Unknown`); memoisation is then the
identity and the `remaining`/`estimate` arguments do not influence verdicts.
The embedding additionally records, in order, every index at which the
(memoised) predicate is queried — the set of recorded indices coincides with
the set of indices at which the user predicate is invoked.

The `loop` is modelled with explicit fuel; `none` means the fuel ran out
(the theorems prove `2 * |S| + 2` iterations always suffice). -/

/-- The left walk of the `Unknown` arm:
`while left > 0 && predicate(left, ..) == Unknown { left -= 1 }`.
Returns the final `left` together with the queried indices. -/
def walkLeft (v : List Satisfies) : Nat → Nat × List Nat
  | 0 => (0, [])
  | l + 1 =>
    if v.getD (l + 1) .Unknown = .Unknown then
      let p := walkLeft v l
      (p.1, (l + 1) :: p.2)
    else
      (l + 1, [l + 1])

/-- The right walk of the `Unknown` arm:
`while right + 1 < slice.len() && predicate(right, ..) == Unknown { right += 1 }`.
Structured with fuel (`v.length` always suffices since `right` increases and
stays below `v.length`).  Returns the final `right` and the queried indices;
the predicate is only queried when `right + 1 < slice.len()` (`&&` is
short-circuiting). -/
def walkRight (v : List Satisfies) : Nat → Nat → Nat × List Nat
  | 0, right => (right, [])
  | fuel + 1, right =>
    if right + 1 < v.length then
      if v.getD right .Unknown = .Unknown then
        let p := walkRight v fuel (right + 1)
        (p.1, right :: p.2)
      else
        (right, [right])
    else
      (right, [])

/-- The `for (left, right) in unknown_ranges` scan of the main loop:
for each recorded range in order, first the straddle check (which returns
`lm_yes`, modelled by `none`), then the containment check which adjusts
`next` and breaks. -/
def scanRanges (rm_no lm_yes next : Nat) : List (Nat × Nat) → Option Nat
  | [] => some next
  | (left, right) :: rest =>
    if rm_no + 1 = left ∧ right + 1 = lm_yes then
      none
    else if left ≤ next ∧ next ≤ right then
      some (if rm_no < left - 1 then left - 1
            else if right < lm_yes then right + 1
            else next)
    else
      scanRanges rm_no lm_yes next rest

/-- The main `loop` of `least_satisfying`, with fuel.  State: `rm_no`,
`lm_yes`, the recorded unknown ranges (pushed at the back, scanned from the
front).  Returns the result (`none` = fuel exhausted) and the query log. -/
def lsLoop (v : List Satisfies) (start_offset : Nat) :
    Nat → Nat → Nat → List (Nat × Nat) → Option Nat × List Nat
  | 0, _, _, _ => (none, [])
  | fuel + 1, rm_no, lm_yes, ranges =>
    if rm_no + 1 = lm_yes then
      (some lm_yes, [])
    else
      match scanRanges rm_no lm_yes (midpoint_stable_offset start_offset rm_no lm_yes) ranges with
      | none => (some lm_yes, [])
      | some next =>
        match v.getD next .Unknown with
        | .Yes =>
          let p := lsLoop v start_offset fuel rm_no next ranges
          (p.1, next :: p.2)
        | .No =>
          let p := lsLoop v start_offset fuel next lm_yes ranges
          (p.1, next :: p.2)
        | .Unknown =>
          let wl := walkLeft v next
          let wr := walkRight v v.length next
          let p := lsLoop v start_offset fuel rm_no lm_yes
            (ranges ++ [(wl.1 + 1, wr.1 - 1)])
          (p.1, next :: (wl.2 ++ (wr.2 ++ p.2)))

/-- Model of `least_satisfying` from `src/least_satisfying.rs`: runs the loop from
`rm_no = 0`, `lm_yes = slice.len() - 1`, no unknown ranges.  The fuel
`2 * |S| + 2` is proved sufficient for the preconditioned inputs. -/
def least_satisfying (v : List Satisfies) (start_offset : Nat) : Option Nat :=
  (lsLoop v start_offset (2 * v.length + 2) 0 (v.length - 1) []).1

/-- The complete query log of a `least_satisfying` run with the given fuel. -/
def lsQueries (v : List Satisfies) (start_offset fuel : Nat) : List Nat :=
  (lsLoop v start_offset fuel 0 (v.length - 1) []).2

/-! ### Loop invariants -/

/-- A recorded unknown range is a maximal run of `Unknown` verdicts strictly
inside the slice. -/
def GoodRange (v : List Satisfies) (lr : Nat × Nat) : Prop :=
  1 ≤ lr.1 ∧ lr.1 ≤ lr.2 ∧ lr.2 + 2 ≤ v.length ∧
  (∀ i, lr.1 ≤ i → i ≤ lr.2 → v.getD i .Unknown = .Unknown) ∧
  (lr.1 = 1 ∨ v.getD (lr.1 - 1) .Unknown ≠ .Unknown) ∧
  (lr.2 + 2 = v.length ∨ v.getD (lr.2 + 1) .Unknown ≠ .Unknown)

/-- Weak loop invariant: holds for any verdict sequence of length ≥ 2. -/
def StateInv (v : List Satisfies) (rm_no lm_yes : Nat)
    (ranges : List (Nat × Nat)) : Prop :=
  rm_no < lm_yes ∧ lm_yes + 1 ≤ v.length ∧
  (rm_no = 0 ∨ v.getD rm_no .Unknown ≠ .Unknown) ∧
  (lm_yes + 1 = v.length ∨ v.getD lm_yes .Unknown ≠ .Unknown) ∧
  ∀ lr ∈ ranges, GoodRange v lr

/-- Strong loop invariant, for sequences satisfying the preconditions:
`rm_no` carries verdict `No` and `lm_yes` carries verdict `Yes`. -/
def StateInvS (v : List Satisfies) (rm_no lm_yes : Nat)
    (ranges : List (Nat × Nat)) : Prop :=
  rm_no < lm_yes ∧ lm_yes + 1 ≤ v.length ∧
  v.getD rm_no .Unknown = .No ∧ v.getD lm_yes .Unknown = .Yes ∧
  ∀ lr ∈ ranges, GoodRange v lr

/-- Some recorded range contains the index `x`. -/
def ContainsIdx (ranges : List (Nat × Nat)) (x : Nat) : Prop :=
  ∃ lr ∈ ranges, lr.1 ≤ x ∧ x ≤ lr.2

/-! ## String helpers

Models of Rust `str::starts_with` / `str::contains` over the character
sequence of a string. -/

/-- Bool-valued substring test on character lists. -/
def strContainsAux (pat : List Char) : List Char → Bool
  | [] => pat.isEmpty
  | c :: rest => pat.isPrefixOf (c :: rest) || strContainsAux pat rest

/-- Model of Rust `str::contains(pat)`. -/
def strContains (s pat : String) : Bool := strContainsAux pat.data s.data

/-- Model of Rust `str::starts_with(pat)`. -/
def strStartsWith (s pat : String) : Bool := pat.data.isPrefixOf s.data

/-! ## Outcome classification (src/main.rs lines 245-285) -/

/-- The `TestOutcome` type from `src/toolchains.rs`. -/
inductive TestOutcome where
  | Baseline
  | Regressed
deriving DecidableEq

/-- The `RegressOn` policy type from `src/main.rs`. -/
inductive RegressOn where
  | Error
  | Success
  | Ice
  | NonIce
  | NonError
deriving DecidableEq

/-- Model of `std::process::Output`: exit code (`none` models termination by signal)
plus the captured streams. -/
structure ProcOutput where
  code : Option Int
  stdout : String
  stderr : String

/-- Model of `ExitStatus::success()` on Unix: exit code 0. -/
def statusSuccess (o : ProcOutput) : Bool := o.code = some 0

/-- The stack-overflow ICE marker of `Config::default_outcome_of_output`:
an apostrophe (code point 39) followed by " has overflowed its stack". -/
def overflowMarker : String := ⟨Char.ofNat 39 :: " has overflowed its stack".data⟩

/-- The `saw_ice` flag of `Config::default_outcome_of_output`: standard error
contains one of the three (code-exact) ICE markers. -/
def saw_ice (stderr : String) : Bool :=
  strContains stderr "error: internal compiler error" ||
    strContains stderr overflowMarker ||
    strContains stderr "error: the compiler unexpectedly panicked"

/-- Model of `Config::default_outcome_of_output` (src/main.rs lines 245-285): the
match over `(self.args.regress, status.success())`, arms in source order. -/
def default_outcome_of_output (regress : RegressOn) (output : ProcOutput) :
    TestOutcome :=
  let saw := saw_ice output.stderr
  match regress, statusSuccess output with
  | .Error, true | .Success, false => .Baseline
  | .Error, false | .Success, true | .NonError, true => .Regressed
  | .Ice, _ | .NonError, false => if saw then .Regressed else .Baseline
  | .NonIce, _ => if saw then .Baseline else .Regressed

/-- Modelled from the spec: the §4.5 classification table
(policy ↦ "Regressed ⇔" condition over `(exit-success, saw-ice)`), written
from the spec words for comparison with `default_outcome_of_output`. -/
def spec_outcome_table (regress : RegressOn) (exitSuccess sawIce : Bool) :
    TestOutcome :=
  match regress with
  | .Error => if !exitSuccess then .Regressed else .Baseline
  | .Success => if exitSuccess then .Regressed else .Baseline
  | .Ice => if sawIce then .Regressed else .Baseline
  | .NonIce => if !sawIce then .Regressed else .Baseline
  | .NonError => if exitSuccess || sawIce then .Regressed else .Baseline

/-- Modelled from the spec: `saw-ice` with the marker strings exactly as the
spec quotes them ("internal compiler error", "overflowed its stack",
"compiler unexpectedly panicked"). -/
def spec_saw_ice (stderr : String) : Bool :=
  strContains stderr "internal compiler error" ||
    strContains stderr "overflowed its stack" ||
    strContains stderr "compiler unexpectedly panicked"

/-! ## `Toolchain::test` (src/toolchains.rs lines 394-435) -/

/-- Model of `Toolchain::test`, over one deterministic test execution.  In
prompt mode the `dialoguer::Select` choice is abstracted as `userSelect`
(the retry arm re-runs the same deterministic output, so the loop
collapses); `none` models the panic taken when exit code 124 is observed
without `--timeout`.  The exit-code-124 check exists only in the prompt
branch; the non-prompt branch goes directly through
`default_outcome_of_output`. -/
def toolchain_test (prompt : Bool) (timeout : Option Nat) (regress : RegressOn)
    (userSelect : TestOutcome) (output : ProcOutput) : Option TestOutcome :=
  if prompt then
    if output.code = some 124 then
      match timeout with
      | some _ => some .Regressed
      | none => none
    else
      some userSelect
  else
    some (default_outcome_of_output regress output)

/-! ## The bisection predicate (src/main.rs lines 750-827) -/

/-- The `InstallError` type from `src/toolchains.rs` (lines 34-50); the payloads are
abstracted to strings. -/
inductive InstallError where
  | NotFound (url : String) (spec : String)
  | Download (cause : String)
  | TempDir (cause : String)
  | Move (cause : String)
  | Subcommand (command : String) (cause : String)
deriving DecidableEq

/-- Discriminator for the `NotFound` variant. -/
def InstallError.isNotFound : InstallError → Bool
  | .NotFound .. => true
  | _ => false

/-- Model of `Config::install_and_test` (src/main.rs lines 750-816): the install and
test side effects are abstracted by their results.  On successful install the
test outcome is mapped `Baseline ↦ No`, `Regressed ↦ Yes`; an install error
is returned unchanged (the terminology strings only affect logging). -/
def install_and_test (installResult : Except InstallError Unit)
    (outcome : TestOutcome) : Except InstallError Satisfies :=
  match installResult with
  | .ok _ =>
    .ok (match outcome with
         | .Baseline => Satisfies.No
         | .Regressed => Satisfies.Yes)
  | .error e => .error e

/-- The predicate `Config::bisect_to_regression` hands to the search
(src/main.rs lines 818-827):
`self.install_and_test(t, dl_spec).unwrap_or(Satisfies::Unknown)`. -/
def bisect_predicate (installResult : Except InstallError Unit)
    (outcome : TestOutcome) : Satisfies :=
  match install_and_test installResult outcome with
  | .ok r => r
  | .error _ => Satisfies.Unknown

/-! ## The rollup guard (src/main.rs lines 1117-1129) -/

/-- The guard of `Config::search_perf_builds` on the commit summary:
`if !summary.starts_with("Auto merge of #") && !summary.contains("Rollup of")
 { bail!("not a rollup pr"); }`. -/
def search_perf_builds_guard (summary : String) : Except String Unit :=
  if !strStartsWith summary "Auto merge of #" &&
      !strContains summary "Rollup of" then
    .error "not a rollup pr"
  else
    .ok ()

/-! ## `NightlyFinderIter` (src/main.rs lines 713-747)

Dates are modelled as day numbers (`Int`); `GitDate` subtraction yields a
`Duration` whose `num_days` is the difference, and `Duration::days j` steps
by `j` days. -/

structure NightlyFinderIter where
  start_date : Int
  current_date : Int
deriving DecidableEq

/-- Model of `NightlyFinderIter::new`. -/
def NightlyFinderIter.new (start_date : Int) : NightlyFinderIter :=
  ⟨start_date, start_date⟩

/-- Model of `Iterator::next for NightlyFinderIter`: updates `current_date` and yields
it (the Rust iterator never returns `None`). -/
def NightlyFinderIter.next (it : NightlyFinderIter) : NightlyFinderIter × Int :=
  let current_distance := it.start_date - it.current_date
  let jump_length : Int :=
    if current_distance < 7 then 2
    else if current_distance < 49 then 7
    else 14
  let nd := it.current_date - jump_length
  (⟨it.start_date, nd⟩, nd)

/-- The first `n` dates yielded by the iterator. -/
def NightlyFinderIter.take (it : NightlyFinderIter) : Nat → List Int
  | 0 => []
  | n + 1 =>
    let p := it.next
    p.2 :: p.1.take n

/-! ## Bound resolution (src/bounds.rs) -/

/-- The `Bound` type from `src/bounds.rs`: a commit reference or a calendar date
(dates as day numbers). -/
inductive Bound where
  | Commit (s : String)
  | Date (d : Int)
deriving DecidableEq

/-- The `Bounds` type from `src/bounds.rs`. -/
inductive Bounds where
  | SearchNightlyBackwards (endDate : Int)
  | Commits (start endCommit : String)
  | Dates (start endDate : Int)
deriving DecidableEq

/-- The `EPOCH_COMMIT` constant from `src/main.rs` (line 62). -/
def EPOCH_COMMIT : String := "927c55d86b0be44337f37cf5b0a76fb8ba86e06c"

/-- The external inputs consumed by `Bounds::from_args`: the current date, the
date of the installed nightly toolchain (if any, `Toolchain::default_nightly`),
the date of the latest nightly (`find_latest_nightly`), the nightly-manifest
commit for a date (`date_to_sha`), and the repository lookup used by
`translate_tags` to turn release tags into dates (`bound_to_date`).  The
network calls are modelled as total functions; their failure modes are
outside the claims under verification. -/
structure BoundsEnv where
  today : Int
  installedNightly : Option Int
  latestNightly : Int
  dateToSha : Int → String
  boundToDate : String → Int

/-- Model of `installed_nightly_or_latest` (src/bounds.rs lines 204-209). -/
def installed_nightly_or_latest (env : BoundsEnv) : Int :=
  match env.installedNightly with
  | some date => date
  | none => env.latestNightly

/-- The tag test of `translate_tags`: a commit bound whose text contains a
`.`. -/
def is_tag : Option Bound → Bool
  | some (.Commit c) => c.data.contains (Char.ofNat 46)
  | _ => false

/-- Model of `is_datelike` from `translate_tags`. -/
def is_datelike (b : Option Bound) : Bool :=
  (match b with
   | none => true
   | some (.Date _) => true
   | some (.Commit _) => false) || is_tag b

/-- The `fixup` closure of `translate_tags`: a tag-shaped commit is resolved
to a date through the repository accessor. -/
def fixup_tag (env : BoundsEnv) (b : Option Bound) : Option Bound :=
  if is_tag b then
    match b with
    | some (.Commit t) => some (.Date (env.boundToDate t))
    | _ => b
  else b

/-- Model of `translate_tags` (src/bounds.rs lines 150-182). -/
def translate_tags (env : BoundsEnv) (start? : Option Bound)
    (end? : Option Bound) : Option Bound × Option Bound :=
  if !(is_datelike start? && is_datelike end?) then (start?, end?)
  else (fixup_tag env start?, fixup_tag env end?)

/-- Rendering of an optional bound used in the mixed-bounds diagnostic
(Rust formats `args.start`/`args.end` with `{:?}`). -/
def boundDebug : Option Bound → String
  | none => "None"
  | some (.Commit c) => "Some(Commit(" ++ c ++ "))"
  | some (.Date d) => "Some(Date(" ++ toString d ++ "))"

/-- The diagnostic of `check_in_future`, naming the offending side and both
dates. -/
def future_date_msg (which : String) (date today : Int) : String :=
  which ++ " date should be on or before current date, got " ++ which ++
    " date request: " ++ toString date ++ " and current date is " ++
    toString today

/-- The mixed-variants diagnostic, naming both supplied bounds. -/
def mixed_bounds_msg (s e : Option Bound) : String :=
  "cannot take different types of bounds for start/end, got start: " ++
    boundDebug s ++ " and end " ++ boundDebug e

/-- The reversed-range diagnostic, naming both dates. -/
def end_before_start_msg (start endDate : Int) : String :=
  "end should be after start, got start: " ++ toString start ++ " and end " ++
    toString endDate

/-- The `--by-commit`-without-start diagnostic. -/
def by_commit_msg : String :=
  "--by-commit with an end date requires --start to be specified"

/-- The `check_in_future` closure of `Bounds::from_args`: rejects a date
strictly after today (a date equal to today is accepted). -/
def check_in_future (today : Int) (which : String) (date : Int) :
    Except String Unit :=
  if date > today then .error (future_date_msg which date today) else .ok ()

/-- Model of `Bounds::from_args` (src/bounds.rs lines 70-145). -/
def from_args (env : BoundsEnv) (start? : Option Bound) (end? : Option Bound)
    (by_commit : Bool) : Except String Bounds := do
  let se := translate_tags env start? end?
  let bounds ← (match se.1, se.2 with
    | none, none =>
      pure (Bounds.SearchNightlyBackwards (installed_nightly_or_latest env))
    | some (.Commit cs), some (.Commit ce) => pure (Bounds.Commits cs ce)
    | some (.Commit cs), none => pure (Bounds.Commits cs "origin/master")
    | none, some (.Commit ce) => pure (Bounds.Commits EPOCH_COMMIT ce)
    | some (.Date ds), some (.Date de) => do
      check_in_future env.today "start" ds
      check_in_future env.today "end" de
      pure (Bounds.Dates ds de)
    | some (.Date ds), none => do
      check_in_future env.today "start" ds
      pure (Bounds.Dates ds env.latestNightly)
    | none, some (.Date de) => do
      check_in_future env.today "end" de
      if by_commit then
        Except.error by_commit_msg
      else
        pure (Bounds.SearchNightlyBackwards de)
    | some (.Commit _), some (.Date _) =>
      Except.error (mixed_bounds_msg start? end?)
    | some (.Date _), some (.Commit _) =>
      Except.error (mixed_bounds_msg start? end?) : Except String Bounds)
  match bounds with
  | Bounds.Dates ds de =>
    if de < ds then
      Except.error (end_before_start_msg ds de)
    else if by_commit then
      pure (Bounds.Commits (env.dateToSha ds) (env.dateToSha de))
    else
      pure bounds
  | _ => pure bounds

/-- Sample environment used by the bound-resolution witnesses: today is day
100, an (older) nightly of day 50 is installed, the newest nightly is day
90. -/
def sampleEnv : BoundsEnv :=
  ⟨100, some 50, 90, fun _ => "manifest-sha", fun _ => 0⟩

/-! ## Theorems -/

/-! ### Properties of `isolate_most_significant_one` -/

theorem log2_le_63 {x : Nat} (hx : 0 < x) (hlt : x < 2 ^ 64) : Nat.log2 x ≤ 63 := by
  have := (Nat.log2_lt (Nat.pos_iff_ne_zero.mp hx)).mpr hlt
  omega

theorem isolate_eq_pow_log2 {x : Nat} (hx : 0 < x) (hlt : x < 2 ^ 64) :
    isolate_most_significant_one x = 2 ^ Nat.log2 x := by
  have hne : x ≠ 0 := Nat.pos_iff_ne_zero.mp hx
  have hm : Nat.log2 x ≤ 63 := log2_le_63 hx hlt
  have hlz : leadingZeros x = 63 - Nat.log2 x := by
    simp only [leadingZeros, usizeBits, if_neg hne]
    omega
  have hmod : leadingZeros x % usizeBits = 63 - Nat.log2 x := by
    rw [hlz]
    exact Nat.mod_eq_of_lt (by unfold usizeBits; omega)
  have hshift : ((1 <<< (usizeBits - 1)) >>> (leadingZeros x % usizeBits))
      = 2 ^ Nat.log2 x := by
    rw [hmod]
    rw [Nat.shiftLeft_eq, Nat.shiftRight_eq_div_pow]
    have : usizeBits - 1 = 63 := by simp [usizeBits]
    rw [this, one_mul]
    rw [Nat.pow_div (by omega) (by omega)]
    congr 1
    omega
  rw [isolate_most_significant_one, hshift]
  -- x &&& 2 ^ log2 x = 2 ^ log2 x  because bit (log2 x) of x is set
  have hbit : x.testBit (Nat.log2 x) = true := by
    rw [Nat.testBit_to_div_mod]
    have h1 : 2 ^ Nat.log2 x ≤ x := Nat.log2_self_le hne
    have h2 : x < 2 ^ (Nat.log2 x + 1) := Nat.lt_log2_self
    have hdiv : x / 2 ^ Nat.log2 x = 1 := by
      have hlo : 1 ≤ x / 2 ^ Nat.log2 x :=
        (Nat.one_le_div_iff (Nat.two_pow_pos _)).mpr h1
      have hhi : x / 2 ^ Nat.log2 x < 2 := by
        rw [Nat.div_lt_iff_lt_mul (Nat.two_pow_pos _)]
        calc x < 2 ^ (Nat.log2 x + 1) := h2
        _ = 2 * 2 ^ Nat.log2 x := by ring
      omega
    simp [hdiv]
  apply Nat.eq_of_testBit_eq
  intro i
  rw [Nat.testBit_and]
  rcases eq_or_ne i (Nat.log2 x) with h | h
  · subst h
    simp [hbit, Nat.testBit_two_pow_self]
  · simp [Nat.testBit_two_pow_of_ne (Ne.symm h)]

/-! ### Correctness of `midpoint_stable` -/

theorem testBit_log2_self {x : Nat} (hne : x ≠ 0) : x.testBit (Nat.log2 x) = true := by
  rw [Nat.testBit_to_div_mod]
  have h1 : 2 ^ Nat.log2 x ≤ x := Nat.log2_self_le hne
  have h2 : x < 2 ^ (Nat.log2 x + 1) := Nat.lt_log2_self
  have hdiv : x / 2 ^ Nat.log2 x = 1 := by
    have hlo : 1 ≤ x / 2 ^ Nat.log2 x :=
      (Nat.one_le_div_iff (Nat.two_pow_pos _)).mpr h1
    have hhi : x / 2 ^ Nat.log2 x < 2 := by
      rw [Nat.div_lt_iff_lt_mul (Nat.two_pow_pos _)]
      calc x < 2 ^ (Nat.log2 x + 1) := h2
      _ = 2 * 2 ^ Nat.log2 x := by ring
    omega
  simp [hdiv]

/-- Binary decomposition of a natural number around bit `m`. -/
theorem bit_decomp (a m : Nat) :
    a = 2 ^ (m + 1) * (a / 2 ^ (m + 1)) + (2 ^ m * (a / 2 ^ m % 2) + a % 2 ^ m) := by
  have hdd : a / 2 ^ m = 2 * (a / 2 ^ (m + 1)) + a / 2 ^ m % 2 := by
    have h := Nat.div_add_mod (a / 2 ^ m) 2
    have h2 : a / 2 ^ m / 2 = a / 2 ^ (m + 1) := by
      rw [Nat.div_div_eq_div_mul, pow_succ]
    omega
  calc a = 2 ^ m * (a / 2 ^ m) + a % 2 ^ m := (Nat.div_add_mod _ _).symm
  _ = 2 ^ m * (2 * (a / 2 ^ (m + 1)) + a / 2 ^ m % 2) + a % 2 ^ m := by rw [← hdd]
  _ = 2 ^ (m + 1) * (a / 2 ^ (m + 1)) + (2 ^ m * (a / 2 ^ m % 2) + a % 2 ^ m) := by
    ring

/-- If two numbers agree on all bits above `m` and differ at bit `m`, the
smaller one has bit `m` clear. -/
theorem high_bits_eq_of_xor_lt {l R : Nat} (hlt : l < R)
    (hhi : l / 2 ^ (Nat.log2 (l ^^^ R) + 1) = R / 2 ^ (Nat.log2 (l ^^^ R) + 1))
    (hdiff : l.testBit (Nat.log2 (l ^^^ R)) ≠ R.testBit (Nat.log2 (l ^^^ R))) :
    l.testBit (Nat.log2 (l ^^^ R)) = false ∧ R.testBit (Nat.log2 (l ^^^ R)) = true := by
  set m := Nat.log2 (l ^^^ R) with hm
  have hl := bit_decomp l m
  have hR := bit_decomp R m
  have hlm : l % 2 ^ m < 2 ^ m := Nat.mod_lt _ (Nat.two_pow_pos m)
  have hRm : R % 2 ^ m < 2 ^ m := Nat.mod_lt _ (Nat.two_pow_pos m)
  have hbl : l.testBit m = decide (l / 2 ^ m % 2 = 1) := Nat.testBit_to_div_mod
  have hbR : R.testBit m = decide (R / 2 ^ m % 2 = 1) := Nat.testBit_to_div_mod
  have hl2 : l / 2 ^ m % 2 = 0 ∨ l / 2 ^ m % 2 = 1 := by omega
  have hR2 : R / 2 ^ m % 2 = 0 ∨ R / 2 ^ m % 2 = 1 := by omega
  rcases hl2 with h0 | h1
  · rcases hR2 with g0 | g1
    · exfalso
      apply hdiff
      rw [hbl, hbR, h0, g0]
    · constructor
      · rw [hbl, h0]; simp
      · rw [hbR, g1]; simp
  · rcases hR2 with g0 | g1
    · exfalso
      rw [hhi] at hl
      have : R < l := by
        rw [h1] at hl
        rw [g0] at hR
        omega
      omega
    · exfalso
      apply hdiff
      rw [hbl, hbR, h1, g1]

theorem high_quot_eq {l R : Nat} (_hne : l ^^^ R ≠ 0) :
    l / 2 ^ (Nat.log2 (l ^^^ R) + 1) = R / 2 ^ (Nat.log2 (l ^^^ R) + 1) := by
  set m := Nat.log2 (l ^^^ R) with hm
  rw [← Nat.shiftRight_eq_div_pow, ← Nat.shiftRight_eq_div_pow]
  apply Nat.eq_of_testBit_eq
  intro i
  rw [Nat.testBit_shiftRight, Nat.testBit_shiftRight]
  have hx : (l ^^^ R) < 2 ^ (m + 1) := Nat.lt_log2_self
  have hxi : (l ^^^ R) < 2 ^ (m + 1 + i) := by
    calc (l ^^^ R) < 2 ^ (m + 1) := hx
    _ ≤ 2 ^ (m + 1 + i) := Nat.pow_le_pow_right (by omega) (by omega)
  have := Nat.testBit_lt_two_pow hxi
  rw [Nat.testBit_xor] at this
  rcases hb : l.testBit (m + 1 + i) <;> rcases hb2 : R.testBit (m + 1 + i) <;>
    simp_all

/-- The mask-and-or construction of `midpoint_stable` in closed arithmetic
form: for `l < R < 2 ^ 64` it produces `2 ^ (m + 1) * (l / 2 ^ (m + 1)) + 2 ^ m`
where `m` is the highest differing bit of `l` and `R`. -/
theorem midpoint_construction {l R : Nat} (hlt : l < R) (hR : R < 2 ^ 64) :
    usizeNot (isolate_most_significant_one (l ^^^ R) - 1) &&& l |||
      isolate_most_significant_one (l ^^^ R)
    = 2 ^ (Nat.log2 (l ^^^ R) + 1) * (l / 2 ^ (Nat.log2 (l ^^^ R) + 1))
      + 2 ^ Nat.log2 (l ^^^ R) := by
  have hne : l ^^^ R ≠ 0 := Nat.xor_ne_zero.mpr (by omega)
  have hl64 : l < 2 ^ 64 := by omega
  have hx64 : l ^^^ R < 2 ^ 64 := by
    apply Nat.lt_pow_two_of_testBit
    intro i hi
    rw [Nat.testBit_xor]
    have h1 : l.testBit i = false :=
      Nat.testBit_lt_two_pow (by
        calc l < 2 ^ 64 := hl64
        _ ≤ 2 ^ i := Nat.pow_le_pow_right (by omega) hi)
    have h2 : R.testBit i = false :=
      Nat.testBit_lt_two_pow (by
        calc R < 2 ^ 64 := hR
        _ ≤ 2 ^ i := Nat.pow_le_pow_right (by omega) hi)
    rw [h1, h2]
    rfl
  set m := Nat.log2 (l ^^^ R) with hm
  have hm63 : m ≤ 63 := log2_le_63 (Nat.pos_of_ne_zero hne) hx64
  have hiso : isolate_most_significant_one (l ^^^ R) = 2 ^ m :=
    isolate_eq_pow_log2 (Nat.pos_of_ne_zero hne) hx64
  have hdiff : l.testBit m ≠ R.testBit m := by
    have hbit := testBit_log2_self hne
    rw [← hm, Nat.testBit_xor] at hbit
    intro h
    rw [h] at hbit
    simp at hbit
  have hhi := high_quot_eq hne
  rw [← hm] at hhi
  have hlow := (high_bits_eq_of_xor_lt hlt hhi hdiff).1
  rw [← hm] at hlow
  rw [hiso]
  -- the mask `!(2^m - 1)` is `2^64 - 2^m`
  have hmask : usizeNot (2 ^ m - 1) = 2 ^ m * (2 ^ (64 - m) - 1) := by
    unfold usizeNot usizeBits
    have hple : (2 : Nat) ^ m ≤ 2 ^ 64 := Nat.pow_le_pow_right (by omega) (by omega)
    have hsplit : (2 : Nat) ^ m * 2 ^ (64 - m) = 2 ^ 64 := by
      rw [← pow_add]
      congr 1
      omega
    have hpos : (0 : Nat) < 2 ^ m := Nat.two_pow_pos m
    have hpos2 : (0 : Nat) < 2 ^ (64 - m) := Nat.two_pow_pos _
    calc 2 ^ 64 - 1 - (2 ^ m - 1) = 2 ^ 64 - 2 ^ m := by omega
    _ = 2 ^ m * 2 ^ (64 - m) - 2 ^ m * 1 := by rw [hsplit, Nat.mul_one]
    _ = 2 ^ m * (2 ^ (64 - m) - 1) := (Nat.mul_sub_left_distrib _ _ _).symm
  have hand : usizeNot (2 ^ m - 1) &&& l = 2 ^ (m + 1) * (l / 2 ^ (m + 1)) := by
    apply Nat.eq_of_testBit_eq
    intro i
    rw [Nat.testBit_and, hmask]
    rw [Nat.testBit_mul_pow_two, Nat.testBit_mul_pow_two]
    rw [Nat.testBit_two_pow_sub_one]
    rw [← Nat.shiftRight_eq_div_pow, Nat.testBit_shiftRight]
    rcases Nat.lt_or_ge i m with hi | hi
    · -- below bit m: both sides are 0
      simp [Nat.not_le_of_lt hi, show ¬ (i ≥ m + 1) by omega]
    · rcases Nat.eq_or_lt_of_le hi with hieq | higt
      · -- at bit m: the left bit is clear
        subst hieq
        simp [hlow, show ¬ (m ≥ m + 1) by omega]
    -- above bit m
      · rcases Nat.lt_or_ge i 64 with hi64 | hi64
        · have hidx : m + 1 + (i - (m + 1)) = i := by omega
          simp [show i ≥ m by omega, show i - m < 64 - m by omega,
            show i ≥ m + 1 by omega, hidx]
        · have hlb : l.testBit i = false :=
            Nat.testBit_lt_two_pow (by
              calc l < 2 ^ 64 := hl64
              _ ≤ 2 ^ i := Nat.pow_le_pow_right (by omega) hi64)
          have hidx : m + 1 + (i - (m + 1)) = i := by omega
          simp [hlb, hidx, show ¬ (i - m < 64 - m) by omega]
  rw [hand]
  rw [← Nat.mul_add_lt_is_or]
  exact Nat.pow_lt_pow_succ (by omega)

/-- Workhorse for C2: on any non-degenerate range inside the `usize` domain,
`midpoint_stable` returns a strictly interior point whose trailing-zero count
(expressed via divisibility by powers of two) is maximal over the open
interval. -/
theorem midpoint_stable_spec (left right : Nat) (h2 : left + 2 ≤ right)
    (h64 : right < 2 ^ 64) :
    left < midpoint_stable left right ∧ midpoint_stable left right < right ∧
      ∀ j t, left < j → j < right → 2 ^ t ∣ j → 2 ^ t ∣ midpoint_stable left right := by
  rcases Nat.eq_or_lt_of_le h2 with heq | hgt
  · -- single-candidate range: the only interior point is `left + 1`
    have hcond : left + 1 = right - 1 := by omega
    rw [midpoint_stable, if_pos hcond]
    refine ⟨by omega, by omega, ?_⟩
    intro j t hj1 hj2 hdvd
    have : j = left + 1 := by omega
    subst this
    exact hdvd
  · have hcond : ¬ (left + 1 = right - 1) := by omega
    rw [midpoint_stable, if_neg hcond]
    have hlt : left < right - 1 := by omega
    have hR : right - 1 < 2 ^ 64 := by omega
    have hmain := midpoint_construction hlt hR
    set R := right - 1 with hRdef
    set m := Nat.log2 (left ^^^ R) with hm
    set H := left / 2 ^ (m + 1) with hH
    rw [hmain]
    -- decompose left and R around bit m
    have hne : left ^^^ R ≠ 0 := Nat.xor_ne_zero.mpr (by omega)
    have hhi := high_quot_eq hne
    rw [← hm] at hhi
    have hdiff : left.testBit m ≠ R.testBit m := by
      have hbit := testBit_log2_self hne
      rw [← hm, Nat.testBit_xor] at hbit
      intro h
      rw [h] at hbit
      simp at hbit
    have hbits := high_bits_eq_of_xor_lt hlt hhi hdiff
    have hlA := bit_decomp left m
    have hRA := bit_decomp R m
    have hlbit : left / 2 ^ m % 2 = 0 := by
      have := hbits.1
      rw [Nat.testBit_to_div_mod] at this
      have h2lt : left / 2 ^ m % 2 = 0 ∨ left / 2 ^ m % 2 = 1 := by omega
      rcases h2lt with h | h
      · exact h
      · rw [h] at this; simp at this
    have hRbit : R / 2 ^ m % 2 = 1 := by
      have := hbits.2
      rw [Nat.testBit_to_div_mod] at this
      simpa using this
    have hlmod : left % 2 ^ m < 2 ^ m := Nat.mod_lt _ (Nat.two_pow_pos m)
    have hRmod : R % 2 ^ m < 2 ^ m := Nat.mod_lt _ (Nat.two_pow_pos m)
    rw [hlbit] at hlA
    rw [hRbit] at hRA
    rw [← hH] at hlA
    rw [hhi] at hH
    rw [← hH] at hRA
    simp only [Nat.mul_zero, Nat.zero_add, Nat.mul_one] at hlA hRA
    -- left = 2^(m+1) H + low, R = 2^(m+1) H + 2^m + low2
    refine ⟨by omega, by omega, ?_⟩
    intro j t hj1 hj2 hdvd
    rcases Nat.lt_or_ge t (m + 1) with ht | ht
    · -- small powers of two divide the midpoint
      have h1 : (2 : Nat) ^ t ∣ 2 ^ m := pow_dvd_pow 2 (by omega)
      have h2 : (2 : Nat) ^ t ∣ 2 ^ (m + 1) * H :=
        Dvd.dvd.mul_right (pow_dvd_pow 2 (by omega)) H
      exact Nat.dvd_add h2 h1
    · -- no multiple of 2^(m+1) lies in the open interval: contradiction
      exfalso
      have hdvd2 : (2 : Nat) ^ (m + 1) ∣ j := dvd_trans (pow_dvd_pow 2 ht) hdvd
      rcases hdvd2 with ⟨d, hd⟩
      have hexp : 2 ^ (m + 1) * (H + 1) = 2 ^ (m + 1) * H + 2 ^ (m + 1) := by ring
      have h2m : (2 : Nat) ^ (m + 1) = 2 * 2 ^ m := by ring
      have hjR : j ≤ R := by omega
      have hup : j < 2 ^ (m + 1) * (H + 1) := by omega
      have hdle : d ≤ H := by
        by_contra hcon
        push_neg at hcon
        have : 2 ^ (m + 1) * (H + 1) ≤ 2 ^ (m + 1) * d :=
          Nat.mul_le_mul_left _ hcon
        omega
      have hdlo : 2 ^ (m + 1) * d ≤ 2 ^ (m + 1) * H :=
        Nat.mul_le_mul_left _ hdle
      omega

/-- C2: for every pair `lo`, `hi` of slice indices with `hi - lo > 1` (inside
the `usize` domain), `midpoint_stable` returns an index strictly between `lo`
and `hi`, and among all indices in the open interval it returns one of maximal
trailing-zero count (minimum depth in the one-based left-heavy binary tree,
expressed via divisibility by powers of two); in particular
`midpoint_stable 8 16 = 12`, `midpoint_stable 25 29 = 28`, and
`midpoint_stable 33 65 = 64`. -/
theorem C2_midpoint_stable_depth (lo hi : Nat) (h2 : lo + 2 ≤ hi)
    (h64 : hi < 2 ^ 64) :
    (lo < midpoint_stable lo hi ∧ midpoint_stable lo hi < hi ∧
      ∀ j t, lo < j → j < hi → 2 ^ t ∣ j → 2 ^ t ∣ midpoint_stable lo hi) ∧
    midpoint_stable 8 16 = 12 ∧ midpoint_stable 25 29 = 28 ∧
      midpoint_stable 33 65 = 64 := by
  refine ⟨midpoint_stable_spec lo hi h2 h64, ?_, ?_, ?_⟩ <;>
    simp [midpoint_stable, isolate_most_significant_one, leadingZeros, usizeNot,
      usizeBits, Nat.log2] <;> decide

/-- Witness for `C2_midpoint_stable_depth` at `lo = 8`, `hi = 16`. -/
theorem C2_midpoint_stable_depth_witness :
    (8 < midpoint_stable 8 16 ∧ midpoint_stable 8 16 < 16 ∧
      ∀ j t, 8 < j → j < 16 → 2 ^ t ∣ j → 2 ^ t ∣ midpoint_stable 8 16) ∧
    midpoint_stable 8 16 = 12 ∧ midpoint_stable 25 29 = 28 ∧
      midpoint_stable 33 65 = 64 :=
  C2_midpoint_stable_depth 8 16 (by decide) (by decide)

/-! ### Walk lemmas -/

theorem walkLeft_le (v : List Satisfies) : ∀ x, (walkLeft v x).1 ≤ x := by
  intro x
  induction x with
  | zero => simp [walkLeft]
  | succ l ih =>
    rw [walkLeft]
    split
    · simpa using Nat.le_trans ih (by omega)
    · simp

theorem walkLeft_unknown (v : List Satisfies) :
    ∀ x i, (walkLeft v x).1 < i → i ≤ x → v.getD i .Unknown = .Unknown := by
  intro x
  induction x with
  | zero => intro i h1 h2; omega
  | succ l ih =>
    intro i h1 h2
    rw [walkLeft] at h1
    by_cases hu : v.getD (l + 1) .Unknown = .Unknown
    · rw [if_pos hu] at h1
      simp at h1
      rcases Nat.eq_or_lt_of_le h2 with he | hl
      · rw [he]; exact hu
      · exact ih i h1 (by omega)
    · rw [if_neg hu] at h1
      simp at h1
      omega

theorem walkLeft_terminal (v : List Satisfies) :
    ∀ x, (walkLeft v x).1 = 0 ∨ v.getD (walkLeft v x).1 .Unknown ≠ .Unknown := by
  intro x
  induction x with
  | zero => simp [walkLeft]
  | succ l ih =>
    rw [walkLeft]
    split
    · simpa using ih
    · next hu => simpa using hu

theorem walkLeft_lt (v : List Satisfies) {x : Nat} (hx : 1 ≤ x)
    (hu : v.getD x .Unknown = .Unknown) : (walkLeft v x).1 < x := by
  rcases x with - | l
  · omega
  · rw [walkLeft, if_pos hu]
    have := walkLeft_le v l
    simpa using Nat.lt_of_le_of_lt this (by omega)

theorem walkLeft_log (v : List Satisfies) :
    ∀ x i, i ∈ (walkLeft v x).2 → 1 ≤ i ∧ i ≤ x := by
  intro x
  induction x with
  | zero => simp [walkLeft]
  | succ l ih =>
    intro i hi
    rw [walkLeft] at hi
    by_cases hu : v.getD (l + 1) .Unknown = .Unknown
    · rw [if_pos hu] at hi
      simp at hi
      rcases hi with he | hm
      · omega
      · have := ih i hm
        omega
    · rw [if_neg hu] at hi
      simp at hi
      omega

theorem walkRight_ge (v : List Satisfies) : ∀ fuel x, x ≤ (walkRight v fuel x).1 := by
  intro fuel
  induction fuel with
  | zero => intro x; simp [walkRight]
  | succ f ih =>
    intro x
    rw [walkRight]
    split
    · split
      · simpa using Nat.le_trans (by omega) (ih (x + 1))
      · simp
    · simp

theorem walkRight_lt_len (v : List Satisfies) :
    ∀ fuel x, x < v.length → (walkRight v fuel x).1 < v.length := by
  intro fuel
  induction fuel with
  | zero => intro x hx; simpa [walkRight] using hx
  | succ f ih =>
    intro x hx
    rw [walkRight]
    split
    · split
      · next h1 h2 => simpa using ih (x + 1) h1
      · simpa using hx
    · simpa using hx

theorem walkRight_unknown (v : List Satisfies) :
    ∀ fuel x i, x ≤ i → i < (walkRight v fuel x).1 → v.getD i .Unknown = .Unknown := by
  intro fuel
  induction fuel with
  | zero => intro x i h1 h2; simp [walkRight] at h2; omega
  | succ f ih =>
    intro x i h1 h2
    rw [walkRight] at h2
    by_cases hlt : x + 1 < v.length
    · rw [if_pos hlt] at h2
      by_cases hu : v.getD x .Unknown = .Unknown
      · rw [if_pos hu] at h2
        simp at h2
        rcases Nat.eq_or_lt_of_le h1 with he | hgt
        · rw [← he]; exact hu
        · exact ih (x + 1) i hgt h2
      · rw [if_neg hu] at h2
        simp at h2
        omega
    · rw [if_neg hlt] at h2
      simp at h2
      omega

theorem walkRight_terminal (v : List Satisfies) :
    ∀ fuel x, x < v.length → v.length ≤ fuel + x →
      ((walkRight v fuel x).1 + 1 = v.length ∨
        v.getD (walkRight v fuel x).1 .Unknown ≠ .Unknown) := by
  intro fuel
  induction fuel with
  | zero => intro x h1 h2; omega
  | succ f ih =>
    intro x h1 h2
    rw [walkRight]
    by_cases hlt : x + 1 < v.length
    · rw [if_pos hlt]
      by_cases hu : v.getD x .Unknown = .Unknown
      · rw [if_pos hu]
        simpa using ih (x + 1) hlt (by omega)
      · rw [if_neg hu]
        simpa using Or.inr hu
    · rw [if_neg hlt]
      simp
      omega

theorem walkRight_gt (v : List Satisfies) {fuel x : Nat} (hf : 1 ≤ fuel)
    (hx : x + 1 < v.length) (hu : v.getD x .Unknown = .Unknown) :
    x < (walkRight v fuel x).1 := by
  rcases fuel with - | f
  · omega
  · rw [walkRight, if_pos hx, if_pos hu]
    have := walkRight_ge v f (x + 1)
    simpa using Nat.lt_of_lt_of_le (by omega) this

theorem walkRight_log (v : List Satisfies) :
    ∀ fuel x i, i ∈ (walkRight v fuel x).2 → x ≤ i ∧ i + 1 < v.length := by
  intro fuel
  induction fuel with
  | zero => intro x i hi; simp [walkRight] at hi
  | succ f ih =>
    intro x i hi
    rw [walkRight] at hi
    by_cases hlt : x + 1 < v.length
    · rw [if_pos hlt] at hi
      by_cases hu : v.getD x .Unknown = .Unknown
      · rw [if_pos hu] at hi
        simp at hi
        rcases hi with he | hm
        · omega
        · have := ih (x + 1) i hm
          omega
      · rw [if_neg hu] at hi
        simp at hi
        omega
    · rw [if_neg hlt] at hi
      simp at hi

theorem StateInvS.weak {v : List Satisfies} {rm lm : Nat} {ranges : List (Nat × Nat)}
    (h : StateInvS v rm lm ranges) : StateInv v rm lm ranges := by
  obtain ⟨h1, h2, h3, h4, h5⟩ := h
  exact ⟨h1, h2, Or.inr (by rw [h3]; simp), Or.inr (by rw [h4]; simp), h5⟩

/-- The offset midpoint is strictly interior. -/
theorem mid_offset_bounds {start_offset l r : Nat} (h2 : l + 2 ≤ r)
    (h64 : r + start_offset + 1 < 2 ^ 64) :
    l < midpoint_stable_offset start_offset l r ∧
      midpoint_stable_offset start_offset l r < r := by
  have hspec := midpoint_stable_spec (l + (start_offset + 1)) (r + (start_offset + 1))
    (by omega) (by omega)
  obtain ⟨hlo, hhi, -⟩ := hspec
  unfold midpoint_stable_offset
  omega

/-- Scan result bounds under the weak invariant: any adjusted probe index
stays strictly between `rm_no` and `lm_yes`. -/
theorem scanRanges_bounds {v : List Satisfies} :
    ∀ (ranges : List (Nat × Nat)) (rm lm next res : Nat),
      (∀ lr ∈ ranges, GoodRange v lr) →
      (rm = 0 ∨ v.getD rm .Unknown ≠ .Unknown) →
      (lm + 1 = v.length ∨ v.getD lm .Unknown ≠ .Unknown) →
      rm < next → next < lm → lm + 1 ≤ v.length →
      scanRanges rm lm next ranges = some res →
      rm < res ∧ res < lm := by
  intro ranges
  induction ranges with
  | nil =>
    intro rm lm next res _ _ _ h1 h2 _ hscan
    simp [scanRanges] at hscan
    omega
  | cons hd tl ih =>
    intro rm lm next res hgood hrm hlm h1 h2 hlen hscan
    obtain ⟨l, r⟩ := hd
    have hg : GoodRange v (l, r) := hgood _ (by simp)
    obtain ⟨hg1, hg2, hg3, hg4, hg5, hg6⟩ := hg
    rw [scanRanges] at hscan
    by_cases hstr : rm + 1 = l ∧ r + 1 = lm
    · rw [if_pos hstr] at hscan
      simp at hscan
    · rw [if_neg hstr] at hscan
      by_cases hcont : l ≤ next ∧ next ≤ r
      · rw [if_pos hcont] at hscan
        simp at hscan
        -- rm is not inside the unknown run
        have hrmlt : rm < l := by
          rcases hrm with h0 | hv
          · omega
          · by_contra hcon
            push_neg at hcon
            have : v.getD rm .Unknown = .Unknown := hg4 rm hcon (by omega)
            exact hv this
        by_cases hc1 : rm < l - 1
        · rw [if_pos hc1] at hscan
          have : l - 1 < lm := by omega
          omega
        · rw [if_neg hc1] at hscan
          by_cases hc2 : r < lm
          · rw [if_pos hc2] at hscan
            -- rm = l - 1, and the straddle check rules out r + 1 = lm
            have hrmeq : rm + 1 = l := by omega
            have : r + 1 ≠ lm := fun h => hstr ⟨hrmeq, h⟩
            omega
          · rw [if_neg hc2] at hscan
            omega
      · rw [if_neg hcont] at hscan
        exact ih rm lm next res (fun lr h => hgood lr (by simp [h])) hrm hlm h1 h2 hlen hscan

/-- Scan result classification under the strong invariant: the scan either
signals a straddle, or lands on an index with a known (non-`Unknown`) verdict,
or falls through all ranges unchanged (so no recorded range contains the
probe). -/
theorem scanRanges_strong {v : List Satisfies} :
    ∀ (ranges : List (Nat × Nat)) (rm lm next : Nat),
      (∀ lr ∈ ranges, GoodRange v lr) →
      v.getD rm .Unknown = .No → v.getD lm .Unknown = .Yes →
      rm < next → next < lm → lm + 1 ≤ v.length →
      scanRanges rm lm next ranges = none ∨
      (∃ res, scanRanges rm lm next ranges = some res ∧
        (v.getD res .Unknown ≠ .Unknown ∨
          (res = next ∧ ∀ lr ∈ ranges, ¬ (lr.1 ≤ next ∧ next ≤ lr.2)))) := by
  intro ranges
  induction ranges with
  | nil =>
    intro rm lm next _ _ _ _ _ _
    right
    exact ⟨next, by simp [scanRanges], Or.inr ⟨rfl, by simp⟩⟩
  | cons hd tl ih =>
    intro rm lm next hgood hrm hlm h1 h2 hlen
    obtain ⟨l, r⟩ := hd
    have hg : GoodRange v (l, r) := hgood _ (by simp)
    obtain ⟨hg1, hg2, hg3, hg4, hg5, hg6⟩ := hg
    rw [scanRanges]
    by_cases hstr : rm + 1 = l ∧ r + 1 = lm
    · rw [if_pos hstr]
      left
      rfl
    · rw [if_neg hstr]
      by_cases hcont : l ≤ next ∧ next ≤ r
      · rw [if_pos hcont]
        right
        have hrmlt : rm < l := by
          by_contra hcon
          push_neg at hcon
          have : v.getD rm .Unknown = .Unknown := hg4 rm hcon (by omega)
          rw [hrm] at this
          exact absurd this (by simp)
        by_cases hc1 : rm < l - 1
        · refine ⟨l - 1, by rw [if_pos hc1], Or.inl ?_⟩
          have hl2 : 2 ≤ l := by omega
          rcases hg5 with h | h
          · omega
          · exact h
        · by_cases hc2 : r < lm
          · refine ⟨r + 1, by rw [if_neg hc1, if_pos hc2], Or.inl ?_⟩
            have hne : r + 1 ≠ lm := fun h => hstr ⟨by omega, h⟩
            rcases hg6 with h | h
            · -- r + 2 = |v| would force r + 1 = lm
              exfalso
              omega
            · exact h
          · -- unreachable: the run would contain lm_yes
            exfalso
            push_neg at hc2
            have : v.getD lm .Unknown = .Unknown := hg4 lm (by omega) (by omega)
            rw [hlm] at this
            exact absurd this (by simp)
      · rw [if_neg hcont]
        rcases ih rm lm next (fun lr h => hgood lr (by simp [h])) hrm hlm h1 h2 hlen with
          hn | ⟨res, hres, hcase⟩
        · left
          exact hn
        · right
          refine ⟨res, hres, ?_⟩
          rcases hcase with hknown | ⟨heq, hnc⟩
          · exact Or.inl hknown
          · refine Or.inr ⟨heq, ?_⟩
            intro lr hmem
            rcases List.mem_cons.mp hmem with hh | ht
            · rw [hh]
              exact hcont
            · exact hnc lr ht

/-- If the scan signals a straddle, some recorded range spans exactly
`(rm_no + 1, lm_yes - 1)`. -/
theorem scanRanges_none_mem :
    ∀ (ranges : List (Nat × Nat)) (rm lm next : Nat),
      scanRanges rm lm next ranges = none →
      ∃ lr ∈ ranges, rm + 1 = lr.1 ∧ lr.2 + 1 = lm := by
  intro ranges
  induction ranges with
  | nil => intro rm lm next h; simp [scanRanges] at h
  | cons hd tl ih =>
    intro rm lm next h
    obtain ⟨l, r⟩ := hd
    rw [scanRanges] at h
    by_cases hstr : rm + 1 = l ∧ r + 1 = lm
    · exact ⟨(l, r), by simp, hstr⟩
    · rw [if_neg hstr] at h
      by_cases hcont : l ≤ next ∧ next ≤ r
      · rw [if_pos hcont] at h
        simp at h
      · rw [if_neg hcont] at h
        obtain ⟨lr, hmem, hprop⟩ := ih rm lm next h
        exact ⟨lr, by simp [hmem], hprop⟩

/-- The range pushed by the `Unknown` arm is a maximal unknown run strictly
inside the slice. -/
theorem pushRange_good {v : List Satisfies} {next : Nat}
    (h1 : 1 ≤ next) (h2 : next + 2 ≤ v.length)
    (hu : v.getD next .Unknown = .Unknown) :
    GoodRange v ((walkLeft v next).1 + 1, (walkRight v v.length next).1 - 1) := by
  have hwl_lt : (walkLeft v next).1 < next := walkLeft_lt v h1 hu
  have hwr_gt : next < (walkRight v v.length next).1 :=
    walkRight_gt v (by omega) (by omega) hu
  have hwr_len : (walkRight v v.length next).1 < v.length :=
    walkRight_lt_len v v.length next (by omega)
  refine ⟨by omega, by omega, by omega, ?_, ?_, ?_⟩
  · intro i hi1 hi2
    rcases le_or_lt i next with hle | hgt
    · exact walkLeft_unknown v next i (by omega) hle
    · exact walkRight_unknown v v.length next i (by omega) (by omega)
  · rcases walkLeft_terminal v next with h | h
    · left; omega
    · right; simpa using h
  · rcases walkRight_terminal v v.length next (by omega) (by omega) with h | h
    · left; omega
    · right
      have : (walkRight v v.length next).1 - 1 + 1 = (walkRight v v.length next).1 := by
        omega
      rw [this]
      exact h

/-- All indices ever handed to the (memoised) predicate by the main loop are
strictly interior, on any verdict sequence satisfying the weak invariant. -/
theorem lsLoop_log_bounds {v : List Satisfies} {off : Nat}
    (hoff : off + v.length < 2 ^ 64) :
    ∀ fuel rm lm ranges, StateInv v rm lm ranges →
      ∀ i ∈ (lsLoop v off fuel rm lm ranges).2, 1 ≤ i ∧ i + 2 ≤ v.length := by
  intro fuel
  induction fuel with
  | zero =>
    intro rm lm ranges _ i hi
    simp [lsLoop] at hi
  | succ f ih =>
    intro rm lm ranges hinv i hi
    obtain ⟨hrl, hlen, hrno, hlyes, hranges⟩ := hinv
    rw [lsLoop] at hi
    by_cases hdone : rm + 1 = lm
    · rw [if_pos hdone] at hi
      simp at hi
    · rw [if_neg hdone] at hi
      have hmid := @mid_offset_bounds off rm lm (by omega) (by omega)
      cases hscan : scanRanges rm lm (midpoint_stable_offset off rm lm) ranges with
      | none =>
        simp [hscan] at hi
      | some next =>
        have hnb := @scanRanges_bounds v ranges rm lm
          (midpoint_stable_offset off rm lm) next hranges hrno hlyes
          hmid.1 hmid.2 hlen hscan
        have hn1 : 1 ≤ next := by omega
        have hn2 : next + 2 ≤ v.length := by omega
        cases hverdict : v.getD next .Unknown with
        | Yes =>
          simp only [hscan, hverdict, List.mem_cons] at hi
          rcases hi with he | hm
          · omega
          · exact ih rm next ranges
              ⟨by omega, by omega, hrno, Or.inr (by rw [hverdict]; simp), hranges⟩ i hm
        | No =>
          simp only [hscan, hverdict, List.mem_cons] at hi
          rcases hi with he | hm
          · omega
          · exact ih next lm ranges
              ⟨by omega, hlen, Or.inr (by rw [hverdict]; simp), hlyes, hranges⟩ i hm
        | Unknown =>
          simp only [hscan, hverdict, List.mem_cons, List.mem_append] at hi
          rcases hi with he | hwl | hwr | hm
          · omega
          · have := walkLeft_log v next i hwl
            omega
          · have := walkRight_log v v.length next i hwr
            omega
          · refine ih rm lm (ranges ++ [((walkLeft v next).1 + 1, (walkRight v v.length next).1 - 1)])
              ⟨hrl, hlen, hrno, hlyes, ?_⟩ i hm
            intro lr hmem
            rcases List.mem_append.mp hmem with hold | hnew
            · exact hranges lr hold
            · simp at hnew
              rw [hnew]
              exact pushRange_good hn1 hn2 hverdict

/-- Main loop correctness under the preconditions: with `k` the least index
carrying verdict `Yes`, the loop returns `some k` whenever the fuel is at
least twice the current bracket width (second conjunct: one unit less
suffices when the current midpoint already has a known verdict or lies in a
recorded range — the amortisation used by the `Unknown` arm). -/
theorem lsLoop_correct {v : List Satisfies} {off k : Nat}
    (hoff : off + v.length < 2 ^ 64)
    (hk : v.getD k .Unknown = .Yes)
    (hkmin : ∀ j, j < k → v.getD j .Unknown ≠ .Yes)
    (hmono : ∀ i j, i < j → j + 1 ≤ v.length → v.getD i .Unknown = .Yes →
      v.getD j .Unknown ≠ .No) :
    ∀ fuel rm lm ranges, StateInvS v rm lm ranges →
      (2 * (lm - rm) ≤ fuel → (lsLoop v off fuel rm lm ranges).1 = some k) ∧
      (2 * (lm - rm) ≤ fuel + 1 →
        (v.getD (midpoint_stable_offset off rm lm) .Unknown ≠ .Unknown ∨
          ContainsIdx ranges (midpoint_stable_offset off rm lm)) →
        (lsLoop v off fuel rm lm ranges).1 = some k) := by
  intro fuel
  induction fuel with
  | zero =>
    intro rm lm ranges hinv
    obtain ⟨hrl, -, -, -, -⟩ := hinv
    exact ⟨fun hf => absurd hf (by omega), fun hf _ => absurd hf (by omega)⟩
  | succ f ih =>
    intro rm lm ranges hinv
    obtain ⟨hrl, hlen, hrno, hlyes, hranges⟩ := hinv
    have hkrm : rm < k := by
      by_contra hcon
      push_neg at hcon
      rcases Nat.eq_or_lt_of_le hcon with he | hlt
      · rw [he] at hk
        rw [hk] at hrno
        simp at hrno
      · exact hmono k rm hlt (by omega) hk hrno
    have hklm : k ≤ lm := by
      by_contra hcon
      push_neg at hcon
      exact hkmin lm hcon hlyes
    by_cases hdone : rm + 1 = lm
    · have hkeq : some lm = some k := by
        have : k = lm := by omega
        rw [this]
      constructor
      · intro _
        rw [lsLoop, if_pos hdone]
        exact hkeq
      · intro _ _
        rw [lsLoop, if_pos hdone]
        exact hkeq
    · -- interior step
      have hm2 : rm + 2 ≤ lm := by omega
      have hmid := @mid_offset_bounds off rm lm (by omega) (by omega)
      have hrno_w : rm = 0 ∨ v.getD rm .Unknown ≠ .Unknown :=
        Or.inr (by rw [hrno]; simp)
      have hlyes_w : lm + 1 = v.length ∨ v.getD lm .Unknown ≠ .Unknown :=
        Or.inr (by rw [hlyes]; simp)
      have hcls := @scanRanges_strong v ranges rm lm
        (midpoint_stable_offset off rm lm) hranges hrno hlyes hmid.1 hmid.2 hlen
      -- the straddle exit is correct
      have hstraddle : ∀ hnone : scanRanges rm lm (midpoint_stable_offset off rm lm)
          ranges = none, some lm = some k := by
        intro hnone
        obtain ⟨lr, hmem, h1, h2⟩ := scanRanges_none_mem ranges rm lm _ hnone
        have hg := hranges lr hmem
        obtain ⟨-, -, -, hall, -, -⟩ := hg
        have : k = lm := by
          by_contra hne
          have hk_in : lr.1 ≤ k ∧ k ≤ lr.2 := by omega
          have := hall k hk_in.1 hk_in.2
          rw [hk] at this
          simp at this
        rw [this]
      rcases hcls with hnone | ⟨res, hres, hcase⟩
      · constructor
        · intro _
          rw [lsLoop, if_neg hdone]
          rw [hnone]
          exact hstraddle hnone
        · intro _ _
          rw [lsLoop, if_neg hdone]
          rw [hnone]
          exact hstraddle hnone
      · have hbounds := @scanRanges_bounds v ranges rm lm
          (midpoint_stable_offset off rm lm) res hranges hrno_w hlyes_w
          hmid.1 hmid.2 hlen hres
        cases hv : v.getD res .Unknown with
        | Yes =>
          have hrec : 2 * (res - rm) ≤ f →
              (lsLoop v off (f + 1) rm lm ranges).1 = some k := by
            intro harith
            rw [lsLoop, if_neg hdone]
            simp only [hres, hv]
            exact (ih rm res ranges ⟨hbounds.1, by omega, hrno, hv, hranges⟩).1 harith
          exact ⟨fun hf => hrec (by omega), fun hf _ => hrec (by omega)⟩
        | No =>
          have hrec : 2 * (lm - res) ≤ f →
              (lsLoop v off (f + 1) rm lm ranges).1 = some k := by
            intro harith
            rw [lsLoop, if_neg hdone]
            simp only [hres, hv]
            exact (ih res lm ranges ⟨hbounds.2, hlen, hv, hlyes, hranges⟩).1 harith
          exact ⟨fun hf => hrec (by omega), fun hf _ => hrec (by omega)⟩
        | Unknown =>
          -- the scan classification forces the fall-through case
          have hfall : res = midpoint_stable_offset off rm lm ∧
              ∀ lr ∈ ranges, ¬ (lr.1 ≤ midpoint_stable_offset off rm lm ∧
                midpoint_stable_offset off rm lm ≤ lr.2) := by
            rcases hcase with hknown | hx
            · rw [hv] at hknown
              simp at hknown
            · exact hx
          have hn1 : 1 ≤ res := by omega
          have hn2 : res + 2 ≤ v.length := by omega
          have hpush : GoodRange v ((walkLeft v res).1 + 1,
              (walkRight v v.length res).1 - 1) := pushRange_good hn1 hn2 hv
          have hcontains : ContainsIdx
              (ranges ++ [((walkLeft v res).1 + 1, (walkRight v v.length res).1 - 1)])
              (midpoint_stable_offset off rm lm) := by
            refine ⟨((walkLeft v res).1 + 1, (walkRight v v.length res).1 - 1),
              by simp, ?_, ?_⟩
            · have := walkLeft_lt v hn1 hv
              omega
            · have := @walkRight_gt v v.length res (by omega) (by omega) hv
              omega
          have hinv2 : StateInvS v rm lm
              (ranges ++ [((walkLeft v res).1 + 1, (walkRight v v.length res).1 - 1)]) := by
            refine ⟨hrl, hlen, hrno, hlyes, ?_⟩
            intro lr hmem
            rcases List.mem_append.mp hmem with hold | hnew
            · exact hranges lr hold
            · simp at hnew
              rw [hnew]
              exact hpush
          constructor
          · intro hf
            rw [lsLoop, if_neg hdone]
            simp only [hres, hv]
            exact (ih rm lm _ hinv2).2 (by omega) (Or.inr hcontains)
          · intro hf hknown
            exfalso
            rcases hknown with hkv | hkc
            · rw [hfall.1] at hv
              exact hkv hv
            · obtain ⟨lr, hmem, hcc⟩ := hkc
              exact hfall.2 lr hmem hcc

/-- C1: for every verdict sequence of length at least 2 with `No` at index 0,
`Yes` at the last index, and monotone non-`Unknown` verdicts (no `No` above a
`Yes`), `least_satisfying` returns the smallest index whose verdict is `Yes`
(`Unknown` entries behave as if absent). -/
theorem C1_least_satisfying_correct (v : List Satisfies) (start_offset : Nat)
    (hlen : 2 ≤ v.length)
    (hoff : start_offset + v.length < 2 ^ 64)
    (hfirst : v.getD 0 .Unknown = .No)
    (hlast : v.getD (v.length - 1) .Unknown = .Yes)
    (hmono : ∀ j, j < v.length → ∀ i, i < j → v.getD i .Unknown = .Yes →
      v.getD j .Unknown ≠ .No) :
    ∃ k, least_satisfying v start_offset = some k ∧
      v.getD k .Unknown = .Yes ∧ ∀ j, j < k → v.getD j .Unknown ≠ .Yes := by
  have hex : ∃ i, v.getD i .Unknown = .Yes := ⟨v.length - 1, hlast⟩
  refine ⟨Nat.find hex, ?_, Nat.find_spec hex, fun j hj => Nat.find_min hex hj⟩
  have hmono2 : ∀ i j, i < j → j + 1 ≤ v.length → v.getD i .Unknown = .Yes →
      v.getD j .Unknown ≠ .No := fun i j h1 h2 hy => hmono j (by omega) i h1 hy
  have hfind1 : v.getD (Nat.find hex) .Unknown = .Yes := Nat.find_spec hex
  have hinv : StateInvS v 0 (v.length - 1) [] := by
    refine ⟨by omega, by omega, hfirst, hlast, by simp⟩
  exact (lsLoop_correct hoff hfind1 (fun j hj => Nat.find_min hex hj) hmono2
    (2 * v.length + 2) 0 (v.length - 1) [] hinv).1 (by omega)

/-- Witness for `C1_least_satisfying_correct` on `[No, Unknown, Yes, Yes]`. -/
theorem C1_least_satisfying_correct_witness :
    ∃ k, least_satisfying [Satisfies.No, Satisfies.Unknown, Satisfies.Yes,
        Satisfies.Yes] 0 = some k ∧
      List.getD [Satisfies.No, Satisfies.Unknown, Satisfies.Yes, Satisfies.Yes]
        k .Unknown = .Yes ∧
      ∀ j, j < k → List.getD [Satisfies.No, Satisfies.Unknown, Satisfies.Yes,
        Satisfies.Yes] j .Unknown ≠ .Yes :=
  C1_least_satisfying_correct
    [Satisfies.No, Satisfies.Unknown, Satisfies.Yes, Satisfies.Yes] 0
    (by decide) (by decide) (by decide) (by decide) (by decide)

/-- C10: on every verdict sequence of length at least 2 (no further
preconditions), the predicate is never queried — and hence the user predicate
is never invoked — at index 0 or at the final index, whatever fuel bound is
imposed on the loop: every recorded probe is strictly interior. -/
theorem C10_no_endpoint_probes (v : List Satisfies) (start_offset fuel : Nat)
    (hlen : 2 ≤ v.length)
    (hoff : start_offset + v.length < 2 ^ 64) :
    (lsQueries v start_offset fuel).all
      (fun i => decide (i ≠ 0) && decide (i ≠ v.length - 1)) = true := by
  rw [List.all_eq_true]
  intro i hi
  unfold lsQueries at hi
  have := @lsLoop_log_bounds v start_offset hoff fuel 0
    (v.length - 1) []
    ⟨by omega, by omega, Or.inl rfl, Or.inl (by omega), by simp⟩ i hi
  simp only [Bool.and_eq_true, decide_eq_true_eq]
  omega

/-- Witness for `C10_no_endpoint_probes` on `[No, Unknown, Unknown, No, Yes]`. -/
theorem C10_no_endpoint_probes_witness :
    (lsQueries [Satisfies.No, Satisfies.Unknown, Satisfies.Unknown,
        Satisfies.No, Satisfies.Yes] 3 12).all
      (fun i => decide (i ≠ 0) && decide (i ≠ 4)) = true :=
  C10_no_endpoint_probes
    [Satisfies.No, Satisfies.Unknown, Satisfies.Unknown, Satisfies.No,
      Satisfies.Yes] 3 12 (by decide) (by decide)

/-- C3 (counterexample): a `Download` install error — which is not
`NotFound` — still maps to `Unknown` in the bisection predicate instead of
propagating, refuting the claim that `NotFound` is the only install error
mapped to `Unknown`. -/
theorem C3_counterexample :
    (InstallError.Download "connection reset").isNotFound = false ∧
    bisect_predicate (.error (InstallError.Download "connection reset"))
      .Baseline = Satisfies.Unknown :=
  ⟨rfl, rfl⟩

/-- C3 (amended): in the predicate `Config::bisect_to_regression` passes to
the search, every install error — `NotFound`, `Download`, `TempDir`, `Move`,
`Subcommand` alike — maps to the verdict `Unknown`; no install error
propagates out of the search. -/
theorem C3_all_install_errors_unknown (e : InstallError) (outcome : TestOutcome) :
    bisect_predicate (.error e) outcome = Satisfies.Unknown := rfl

/-- C4 (counterexample): a summary satisfying only the first of the two
conditions — it starts with "Auto merge of #" but does not contain
"Rollup of" — passes the guard of `search_perf_builds` instead of failing
with "not a rollup pr", refuting the claim that refinement requires both. -/
theorem C4_counterexample :
    strStartsWith "Auto merge of #100 - foo, r=bar" "Auto merge of #" = true ∧
    strContains "Auto merge of #100 - foo, r=bar" "Rollup of" = false ∧
    search_perf_builds_guard "Auto merge of #100 - foo, r=bar" = .ok () :=
  ⟨rfl, rfl, rfl⟩

/-- C4 (amended): the perf-build refinement guard fails with
"not a rollup pr" exactly when the commit summary neither starts with
"Auto merge of #" nor contains "Rollup of"; it proceeds when either
condition holds (a disjunction, not the spec conjunction). -/
theorem C4_rollup_guard_amended (summary : String) :
    (search_perf_builds_guard summary = .error "not a rollup pr" ↔
      strStartsWith summary "Auto merge of #" = false ∧
        strContains summary "Rollup of" = false) ∧
    (search_perf_builds_guard summary = .ok () ↔
      (strStartsWith summary "Auto merge of #" = true ∨
        strContains summary "Rollup of" = true)) := by
  unfold search_perf_builds_guard
  rcases h1 : strStartsWith summary "Auto merge of #" <;>
    rcases h2 : strContains summary "Rollup of" <;> simp

/-- C5 (counterexample): in non-interactive mode with `--timeout` set and
policy `success`, an exit code 124 (an exit failure with no ICE markers) is
classified `Baseline`, not `Regressed` — the 124 check exists only in the
prompt branch of `Toolchain::test`. -/
theorem C5_counterexample :
    toolchain_test false (some 5) .Success .Baseline ⟨some 124, "", ""⟩ =
        some TestOutcome.Baseline ∧
      some TestOutcome.Baseline ≠ some TestOutcome.Regressed :=
  ⟨rfl, by decide⟩

/-- C5 (amended): in interactive (prompt) mode with `--timeout` set, a test
whose wrapped process exits with code 124 is classified `Regressed` before
any prompt, for every regression policy and user selection. -/
theorem C5_timeout_regressed_interactive (n : Nat) (regress : RegressOn)
    (userSelect : TestOutcome) (output : ProcOutput)
    (h124 : output.code = some 124) :
    toolchain_test true (some n) regress userSelect output =
      some TestOutcome.Regressed := by
  simp [toolchain_test, h124]

/-- Witness for `C5_timeout_regressed_interactive` at exit code 124 with a
30-second timeout and policy `success`. -/
theorem C5_timeout_regressed_interactive_witness :
    toolchain_test true (some 30) .Success .Baseline ⟨some 124, "", ""⟩ =
      some TestOutcome.Regressed :=
  C5_timeout_regressed_interactive 30 .Success .Baseline ⟨some 124, "", ""⟩ rfl

/-- C6 (counterexample): a standard error containing the spec marker
"internal compiler error" but not the code longer marker
"error: internal compiler error": under policy `ice` with exit success the
code classifies `Baseline`, while the spec table over its own `saw-ice`
says `Regressed`. -/
theorem C6_counterexample :
    default_outcome_of_output .Ice
        ⟨some 0, "", "internal compiler error: oops"⟩ = .Baseline ∧
      spec_outcome_table .Ice
        (statusSuccess ⟨some 0, "", "internal compiler error: oops"⟩)
        (spec_saw_ice "internal compiler error: oops") = .Regressed :=
  ⟨rfl, rfl⟩

/-- C6 (amended): for every process output and policy, the automatic
classification equals the spec policy table over
`(exit-success, saw-ice)`, with `saw-ice` computed from the code exact
marker strings ("error: internal compiler error",
an apostrophe followed by " has overflowed its stack", and
"error: the compiler unexpectedly panicked"). -/
theorem C6_outcome_table_amended (regress : RegressOn) (output : ProcOutput) :
    default_outcome_of_output regress output =
      spec_outcome_table regress (statusSuccess output) (saw_ice output.stderr) := by
  cases regress <;> rcases h : statusSuccess output <;>
    rcases hs : saw_ice output.stderr <;>
    simp [default_outcome_of_output, spec_outcome_table, h, hs]

/-- C7: the nightly initial-walk iterator steps backwards by 2 days while the
distance already traveled is under 7 days, by 7 days while it is under
49 days, and by 14 days thereafter; consequently, from any start date the
first twelve visited dates lie at offsets 2, 4, 6, 8, 15, 22, 29, 36, 43,
50, 64, 78 before the start (in particular from 2019-01-01). -/
theorem C7_nightly_finder_walk (s δ : Int) (_hδ : 0 ≤ δ) :
    ((NightlyFinderIter.mk s (s - δ)).next).2 =
      s - (δ + (if δ < 7 then 2 else if δ < 49 then 7 else 14)) ∧
    (NightlyFinderIter.new s).take 12 =
      [s - 2, s - 4, s - 6, s - 8, s - 15, s - 22, s - 29, s - 36, s - 43,
        s - 50, s - 64, s - 78] := by
  constructor
  · simp only [NightlyFinderIter.next, sub_sub_cancel]
    split_ifs <;> ring
  · simp [NightlyFinderIter.new, NightlyFinderIter.take,
      NightlyFinderIter.next, sub_sub]

/-- Witness for `C7_nightly_finder_walk` at start 0 with 10 days traveled. -/
theorem C7_nightly_finder_walk_witness :
    ((NightlyFinderIter.mk 0 (0 - 10)).next).2 =
      0 - (10 + (if (10 : Int) < 7 then 2 else if (10 : Int) < 49 then 7 else 14)) ∧
    (NightlyFinderIter.new 0).take 12 =
      [0 - 2, 0 - 4, 0 - 6, 0 - 8, 0 - 15, 0 - 22, 0 - 29, 0 - 36, 0 - 43,
        0 - 50, 0 - 64, 0 - 78] :=
  C7_nightly_finder_walk 0 10 (by decide)

/-! ### Computation lemmas for `Except` -/

theorem except_bind_ok {ε α β : Type} (a : α) (f : α → Except ε β) :
    (Except.ok a >>= f) = f a := rfl

theorem except_bind_err {ε α β : Type} (e : ε) (f : α → Except ε β) :
    ((Except.error e : Except ε α) >>= f) = Except.error e := rfl

theorem except_map_ok {ε α β : Type} (g : α → β) (a : α) :
    (g <$> (Except.ok a : Except ε α)) = Except.ok (g a) := rfl

theorem except_map_err {ε α β : Type} (g : α → β) (e : ε) :
    (g <$> (Except.error e : Except ε α)) = Except.error e := rfl

theorem except_pure {ε α : Type} (a : α) :
    (pure a : Except ε α) = Except.ok a := rfl

/-- Tag translation is the identity on non-tag bounds. -/
theorem translate_tags_id {env : BoundsEnv} {s e : Option Bound}
    (hs : is_tag s = false) (he : is_tag e = false) :
    translate_tags env s e = (s, e) := by
  unfold translate_tags
  split
  · rfl
  · simp [fixup_tag, hs, he]

theorem is_tag_date (d : Int) : is_tag (some (Bound.Date d)) = false := rfl

theorem is_tag_none : is_tag none = false := rfl

/-- C8: bound resolution rejects any supplied date boundary lying strictly
after the current date (a date equal to today is accepted), rejects a date
range whose end is before its start, and rejects one (non-tag) commit
boundary paired with one date boundary, in each case with the diagnostic
naming the offending bound or both bounds; inputs passing those checks are
accepted. -/
theorem C8_bound_rejections (env : BoundsEnv) (bc : Bool) :
    (∀ c d, c.data.contains (Char.ofNat 46) = false →
      from_args env (some (Bound.Commit c)) (some (Bound.Date d)) bc =
        .error (mixed_bounds_msg (some (Bound.Commit c))
          (some (Bound.Date d)))) ∧
    (∀ c d, c.data.contains (Char.ofNat 46) = false →
      from_args env (some (Bound.Date d)) (some (Bound.Commit c)) bc =
        .error (mixed_bounds_msg (some (Bound.Date d))
          (some (Bound.Commit c)))) ∧
    (∀ ds, env.today < ds →
      from_args env (some (Bound.Date ds)) none bc =
        .error (future_date_msg "start" ds env.today)) ∧
    (∀ ds de, env.today < ds →
      from_args env (some (Bound.Date ds)) (some (Bound.Date de)) bc =
        .error (future_date_msg "start" ds env.today)) ∧
    (∀ de, env.today < de →
      from_args env none (some (Bound.Date de)) bc =
        .error (future_date_msg "end" de env.today)) ∧
    (∀ ds de, ds ≤ env.today → env.today < de →
      from_args env (some (Bound.Date ds)) (some (Bound.Date de)) bc =
        .error (future_date_msg "end" de env.today)) ∧
    (∀ ds de, ds ≤ env.today → de ≤ env.today → de < ds →
      from_args env (some (Bound.Date ds)) (some (Bound.Date de)) bc =
        .error (end_before_start_msg ds de)) ∧
    (∀ ds de, ds ≤ env.today → de ≤ env.today → ds ≤ de →
      ∃ b, from_args env (some (Bound.Date ds)) (some (Bound.Date de)) bc =
        .ok b) ∧
    (∀ de, de ≤ env.today → bc = false →
      from_args env none (some (Bound.Date de)) bc =
        .ok (Bounds.SearchNightlyBackwards de)) := by
  refine ⟨?_, ?_, ?_, ?_, ?_, ?_, ?_, ?_, ?_⟩
  · intro c d hc
    have ht : is_tag (some (Bound.Commit c)) = false := hc
    simp [from_args, translate_tags_id ht (is_tag_date d),
      except_bind_ok, except_bind_err]
  · intro c d hc
    have ht : is_tag (some (Bound.Commit c)) = false := hc
    simp [from_args, translate_tags_id (is_tag_date d) ht,
      except_bind_ok, except_bind_err]
  · intro ds h
    simp [from_args, translate_tags_id (is_tag_date ds) is_tag_none,
      check_in_future, h, except_bind_ok, except_bind_err]
  · intro ds de h
    simp [from_args, translate_tags_id (is_tag_date ds) (is_tag_date de),
      check_in_future, h, except_bind_ok, except_bind_err]
  · intro de h
    simp [from_args, translate_tags_id is_tag_none (is_tag_date de),
      check_in_future, h, except_bind_ok, except_bind_err]
  · intro ds de h1 h2
    simp [from_args, translate_tags_id (is_tag_date ds) (is_tag_date de),
      check_in_future, not_lt.mpr h1, h2, except_bind_ok, except_bind_err]
  · intro ds de h1 h2 h3
    simp [from_args, translate_tags_id (is_tag_date ds) (is_tag_date de),
      check_in_future, not_lt.mpr h1, not_lt.mpr h2, h3,
      except_bind_ok, except_bind_err, except_pure]
  · intro ds de h1 h2 h3
    cases bc
    · exact ⟨Bounds.Dates ds de, by
        simp [from_args, translate_tags_id (is_tag_date ds) (is_tag_date de),
          check_in_future, not_lt.mpr h1, not_lt.mpr h2, not_lt.mpr h3,
          except_bind_ok, except_bind_err, except_pure]⟩
    · exact ⟨Bounds.Commits (env.dateToSha ds) (env.dateToSha de), by
        simp [from_args, translate_tags_id (is_tag_date ds) (is_tag_date de),
          check_in_future, not_lt.mpr h1, not_lt.mpr h2, not_lt.mpr h3,
          except_bind_ok, except_bind_err, except_pure]⟩
  · intro de h1 h2
    subst h2
    simp [from_args, translate_tags_id is_tag_none (is_tag_date de),
      check_in_future, not_lt.mpr h1, except_bind_ok, except_bind_err,
      except_pure]

/-- Witness for `C8_bound_rejections`: an end date equal to today (day 100)
is accepted; an end date one day in the future is rejected naming the end. -/
theorem C8_bound_rejections_witness :
    from_args sampleEnv none (some (Bound.Date 100)) false =
        .ok (Bounds.SearchNightlyBackwards 100) ∧
      from_args sampleEnv none (some (Bound.Date 101)) false =
        .error (future_date_msg "end" 101 sampleEnv.today) :=
  ⟨(C8_bound_rejections sampleEnv false).2.2.2.2.2.2.2.2 100 (by decide) rfl,
    (C8_bound_rejections sampleEnv false).2.2.2.2.1 101 (by decide)⟩

/-- C9 (counterexample): with both boundaries missing, an installed nightly
of day 50 and a newest nightly of day 90, resolution produces a backwards
nightly search ending at day 50 — the end does not default to the newest
nightly (day 90), and no start bound is produced at all, refuting the
claimed start/end defaults. -/
theorem C9_counterexample :
    from_args sampleEnv none none false =
        .ok (Bounds.SearchNightlyBackwards 50) ∧
      sampleEnv.latestNightly = 90 ∧ (50 : Int) ≠ 90 :=
  ⟨rfl, rfl, by decide⟩

/-- C9 (amended): when both boundaries are missing, resolution yields a
backwards nightly search ending at the installed nightly or, failing that,
the newest nightly; a missing end with a date start defaults to the newest
nightly; and a missing start with a (non-tag) commit end yields a commit
search from the epoch commit to the given end. -/
theorem C9_default_bounds (env : BoundsEnv) :
    (∀ d, env.installedNightly = some d → installed_nightly_or_latest env = d) ∧
    (env.installedNightly = none →
      installed_nightly_or_latest env = env.latestNightly) ∧
    (∀ bc, from_args env none none bc =
      .ok (Bounds.SearchNightlyBackwards (installed_nightly_or_latest env))) ∧
    (∀ ds, ds ≤ env.today → ds ≤ env.latestNightly →
      from_args env (some (Bound.Date ds)) none false =
        .ok (Bounds.Dates ds env.latestNightly)) ∧
    (∀ c, c.data.contains (Char.ofNat 46) = false → ∀ bc,
      from_args env none (some (Bound.Commit c)) bc =
        .ok (Bounds.Commits EPOCH_COMMIT c)) := by
  refine ⟨?_, ?_, ?_, ?_, ?_⟩
  · intro d hd
    simp [installed_nightly_or_latest, hd]
  · intro hd
    simp [installed_nightly_or_latest, hd]
  · intro bc
    simp [from_args, translate_tags_id is_tag_none is_tag_none,
      except_bind_ok, except_bind_err, except_pure]
  · intro ds h hl
    simp [from_args, translate_tags_id (is_tag_date ds) is_tag_none,
      check_in_future, not_lt.mpr h, not_lt.mpr hl, except_bind_ok,
      except_bind_err, except_pure]
  · intro c hc bc
    have ht : is_tag (some (Bound.Commit c)) = false := hc
    simp [from_args, translate_tags_id is_tag_none ht,
      except_bind_ok, except_bind_err, except_pure]

/-- Witness for `C9_default_bounds` on the sample environment. -/
theorem C9_default_bounds_witness :
    from_args sampleEnv none none false =
        .ok (Bounds.SearchNightlyBackwards (installed_nightly_or_latest sampleEnv)) ∧
      from_args sampleEnv (some (Bound.Date 70)) none false =
        .ok (Bounds.Dates 70 sampleEnv.latestNightly) ∧
      from_args sampleEnv none (some (Bound.Commit "abc123")) false =
        .ok (Bounds.Commits EPOCH_COMMIT "abc123") :=
  ⟨(C9_default_bounds sampleEnv).2.2.1 false,
    (C9_default_bounds sampleEnv).2.2.2.1 70 (by decide) (by decide),
    (C9_default_bounds sampleEnv).2.2.2.2 "abc123" (by decide) false⟩

end Bisect
